import Mathlib

/-!
Verification of axotag's tag-parsing core (`src/lib.rs`): the
`strip_prefix_package` longest-prefix matcher and the `parse_tag`
state machine (slash form, dash form, `v`-prefix strip, semantic-version
parse, consistency validation), together with its error taxonomy.

Packages are modelled as a list of `(PackageIdx, PackageInfo)` pairs in
ascending key order — the iteration order of the Rust `BTreeMap`.
Semantic versions (the external `semver` crate collaborator) are modelled
by `SemVer` with a parser following the semver 2.0 grammar the crate
implements: `major.minor.patch` (numeric, no leading zeros, 64-bit
bounded) with optional `-pre` and `+build` dot-separated identifier
sections.
-/

/-- Identifier of a package in the caller's catalogue (Rust `PackageIdx`,
a `usize` index). -/
abbrev PackageIdx := Nat

/-- A semantic version as the `semver` crate structures it: numeric
`major.minor.patch` plus the raw pre-release and build-metadata texts.
Equality is structural, as `semver::Version`'s `PartialEq`. -/
structure SemVer where
  major : Nat
  minor : Nat
  patch : Nat
  pre : String
  build : String
deriving DecidableEq, Repr

/-- A character allowed inside a semver pre-release or build identifier:
ASCII alphanumeric or hyphen. -/
def isIdentChar (c : Char) : Bool :=
  c.isDigit || c.isAlpha || c == '-'

/-- The numeric value of a string of decimal digits. -/
def digitsToNat (ds : List Char) : Nat :=
  ds.foldl (fun n c => 10 * n + (c.toNat - '0'.toNat)) 0

/-- Parse a leading numeric component (used for major, minor, patch):
a nonempty run of digits, no leading zero, bounded by `u64` as in the
`semver` crate. Returns the value and the unconsumed characters. -/
def parseNumericComponent (cs : List Char) : Except String (Nat × List Char) :=
  let ds := cs.takeWhile Char.isDigit
  let rest := cs.dropWhile Char.isDigit
  if ds.isEmpty then .error "expected numeric component"
  else if ds.length > 1 && ds.head? == some '0' then
    .error "leading zero in numeric component"
  else if digitsToNat ds < 2 ^ 64 then .ok (digitsToNat ds, rest)
  else .error "numeric component overflows 64 bits"

/-- A valid pre-release identifier: nonempty, alphanumeric/hyphen, and a
purely numeric identifier has no leading zero. -/
def validPreIdent (s : List Char) : Bool :=
  !s.isEmpty && s.all isIdentChar &&
    (if s.all Char.isDigit then s.length == 1 || s.head? != some '0' else true)

/-- A valid build-metadata identifier: nonempty, alphanumeric/hyphen. -/
def validBuildIdent (s : List Char) : Bool :=
  !s.isEmpty && s.all isIdentChar

/-- Parse the optional `-pre` and `+build` sections that may follow
`major.minor.patch`, requiring the whole remaining input to be consumed. -/
def parsePreBuild (cs : List Char) : Except String (String × String) :=
  match cs with
  | [] => .ok ("", "")
  | '-' :: rest =>
    let preChars := rest.takeWhile (fun c => c != '+')
    let rest' := rest.dropWhile (fun c => c != '+')
    if preChars.all (fun c => isIdentChar c || c == '.') &&
        (preChars.splitOn '.').all validPreIdent then
      match rest' with
      | [] => .ok (String.mk preChars, "")
      | '+' :: brest =>
        if brest.all (fun c => isIdentChar c || c == '.') &&
            (brest.splitOn '.').all validBuildIdent then
          .ok (String.mk preChars, String.mk brest)
        else .error "invalid build metadata"
      | _ => .error "unexpected character after pre-release"
    else .error "invalid pre-release"
  | '+' :: brest =>
    if brest.all (fun c => isIdentChar c || c == '.') &&
        (brest.splitOn '.').all validBuildIdent then
      .ok ("", String.mk brest)
    else .error "invalid build metadata"
  | _ => .error "unexpected character"

/-- Parse a full semantic version from a character list:
`major.minor.patch` then the optional pre-release/build sections. -/
def parseVersionChars (cs : List Char) : Except String SemVer :=
  match parseNumericComponent cs with
  | .error e => .error e
  | .ok (major, cs1) =>
    match cs1 with
    | '.' :: cs2 =>
      match parseNumericComponent cs2 with
      | .error e => .error e
      | .ok (minor, cs3) =>
        match cs3 with
        | '.' :: cs4 =>
          match parseNumericComponent cs4 with
          | .error e => .error e
          | .ok (patch, cs5) =>
            match parsePreBuild cs5 with
            | .error e => .error e
            | .ok (pre, build) => .ok ⟨major, minor, patch, pre, build⟩
        | _ => .error "expected dot"
    | _ => .error "expected dot"

/-- `semver::Version::parse` (`tag_suffix.parse::<Version>()` in
`parse_tag`): the external version-parser collaborator. -/
def SemVer.parse (s : String) : Except String SemVer :=
  parseVersionChars s.data

/-- Catalogue entry (`axoproject::PackageInfo`, the fields `parse_tag`
reads): the package's name and its optional manifest-recorded version. -/
structure PackageInfo where
  name : String
  version : Option SemVer
deriving DecidableEq, Repr

/-- The package catalogue: `BTreeMap<PackageIdx, &PackageInfo>` as its
ascending-key iteration sequence. -/
abbrev Catalogue := List (PackageIdx × PackageInfo)

/-- `packages.get(&pkg_idx)`: look a package up by its index. -/
def mapGet (packages : Catalogue) (k : PackageIdx) : Option PackageInfo :=
  (packages.find? (fun p => p.1 == k)).map (fun p => p.2)

/-- Rust `str::strip_prefix` with a string pattern: the remainder of `s`
after `p`, when `p` is a prefix of `s`. -/
def stripPrefixStr (p s : String) : Option String :=
  if p.data.isPrefixOf s.data then some (String.mk (s.data.drop p.data.length))
  else none

/-- Rust `str::rsplit_once` on a character list: split at the last
occurrence of `sep` into the text before and after it. -/
def rsplitOnceList (sep : Char) : List Char → Option (List Char × List Char)
  | [] => none
  | c :: cs =>
    match rsplitOnceList sep cs with
    | some (before, after) => some (c :: before, after)
    | none => if c = sep then some ([], cs) else none

/-- Rust `str::rsplit_once` on strings. -/
def rsplitOnce (sep : Char) (s : String) : Option (String × String) :=
  (rsplitOnceList sep s.data).map (fun p => (String.mk p.1, String.mk p.2))

/-- The loop of `strip_prefix_package` (src/lib.rs:137-148): fold the
catalogue, keeping the current best match and replacing it only when a
new match leaves a strictly shorter remainder. -/
def stripPrefixGo (input : String) :
    Catalogue → Option (PackageIdx × String) → Option (PackageIdx × String)
  | [], result => result
  | (pkg_id, package) :: more, result =>
    match stripPrefixStr package.name input with
    | none => stripPrefixGo input more result
    | some rest =>
      match result with
      | some (best_id, best) =>
        if best.length ≤ rest.length then stripPrefixGo input more (some (best_id, best))
        else stripPrefixGo input more (some (pkg_id, rest))
      | none => stripPrefixGo input more (some (pkg_id, rest))

/-- `strip_prefix_package` (src/lib.rs:133-149): try to strip a package
name from the input, preferring the longest matching name. -/
def strip_prefix_package (input : String) (packages : Catalogue) :
    Option (PackageIdx × String) :=
  stripPrefixGo input packages none

/-- The candidate package-name segment of the slash form (src/lib.rs:47-52):
the component of the text before the last `/` that follows its own last
`/`, or that whole text when it has no `/`. -/
def slashCandidate (pfx : String) : String :=
  match rsplitOnce '/' pfx with
  | some (_, package) => package
  | none => pfx

/-- The slash form (src/lib.rs:45-61): when the tag contains `/`, split at
the last `/`; the matched package becomes the announcing package only when
the matcher consumes the whole candidate segment, and the suffix becomes
the working remainder either way. Returns (announcing package, remainder). -/
def slashStage (packages : Catalogue) (t : String) : Option PackageIdx × String :=
  match rsplitOnce '/' t with
  | some (pfx, suffix) =>
    let ap :=
      match strip_prefix_package (slashCandidate pfx) packages with
      | some (package, rest) => if rest = "" then some package else none
      | none => none
    (ap, suffix)
  | none => (none, t)

/-- The dash form (src/lib.rs:63-72): only when no announcing package is
set yet, run the matcher on the working remainder; accept the match only
when a `-` immediately follows the matched name, consuming both. -/
def dashStage (packages : Catalogue) (st : Option PackageIdx × String) :
    Option PackageIdx × String :=
  match st with
  | (some p, s) => (some p, s)
  | (none, s) =>
    match strip_prefix_package s packages with
    | some (package, suffix) =>
      match stripPrefixStr "-" suffix with
      | some suffix' => (some package, suffix')
      | none => (none, s)
    | none => (none, s)

/-- The `v`-prefix strip (src/lib.rs:76-78): remove exactly one leading
`v` from the working remainder, when present. -/
def vStrip (s : String) : String :=
  match stripPrefixStr "v" s with
  | some suffix => suffix
  | none => s

/-- `TagError` (src/errors.rs): the three failure kinds of `parse_tag`,
each with the payload the Rust enum carries. -/
inductive TagError where
  | ContradictoryTagVersion (tag : String) (package_name : String)
      (tag_version : SemVer) (real_version : SemVer)
  | TagVersionParse (tag : String) (details : String)
  | NoTagMatch (tag : String)
deriving DecidableEq, Repr

/-- `PartialAnnouncementTag` (src/lib.rs:17-26): the parse result. -/
structure PartialAnnouncementTag where
  tag : Option String
  version : Option SemVer
  package : Option PackageIdx
  prerelease : Bool
deriving DecidableEq, Repr

/-- The tail of `parse_tag` after the slash and dash forms
(src/lib.rs:74-117): strip the `v`, parse the version, validate a
package-scoped announcement against the recorded version or set the
unified version, and apply the defensive no-match guard. -/
def finishTag (packages : Catalogue) (t : String) (st : Option PackageIdx × String) :
    Except TagError PartialAnnouncementTag :=
  match SemVer.parse (vStrip st.2) with
  | .error e => .error (.TagVersionParse t e)
  | .ok version =>
    let announcing_prerelease := version.pre != ""
    let versionCheck : Except TagError (Option SemVer) :=
      match st.1 with
      | some pkg_idx =>
        match mapGet packages pkg_idx with
        | some package =>
          match package.version with
          | some real_version =>
            if real_version != version then
              .error (.ContradictoryTagVersion t package.name version real_version)
            else .ok none
          | none => .ok none
        | none => .ok none
      | none => .ok (some version)
    match versionCheck with
    | .error e => .error e
    | .ok announcing_version =>
      if st.1.isNone && announcing_version.isNone then
        .error (.NoTagMatch t)
      else
        .ok ⟨some t, announcing_version, st.1, announcing_prerelease⟩

/-- `parse_tag` (src/lib.rs:33-125): an absent tag yields the default
result; a present tag goes through the slash form, the dash form and the
version tail. -/
def parse_tag (packages : Catalogue) (tag : Option String) :
    Except TagError PartialAnnouncementTag :=
  match tag with
  | none => .ok ⟨none, none, none, false⟩
  | some t => finishTag packages t (dashStage packages (slashStage packages t))

/-- Whether a `parse_tag` outcome is the `NoTagMatch` error. -/
def isNoTagMatch : Except TagError PartialAnnouncementTag → Bool
  | .error (.NoTagMatch _) => true
  | _ => false

/-! ## String and split helpers -/

/-- Two strings are equal exactly when their character lists are. -/
theorem string_eq_iff_data {a b : String} : a = b ↔ a.data = b.data := by
  constructor
  · intro h; rw [h]
  · intro h; cases a; cases b; exact congrArg String.mk h

/-- `stripPrefixStr p s` succeeds with `r` exactly when `s` is `p`
followed by `r`. -/
theorem stripPrefixStr_eq_some {p s r : String} :
    stripPrefixStr p s = some r ↔ s = p ++ r := by
  unfold stripPrefixStr
  constructor
  · intro h
    split at h
    · next hpre =>
      rw [List.isPrefixOf_iff_prefix, List.prefix_iff_eq_append] at hpre
      injection h with h
      rw [string_eq_iff_data, String.data_append, ← h]
      exact hpre.symm
    · exact absurd h (by simp)
  · intro h
    subst h
    have hpre : p.data.isPrefixOf (p ++ r).data = true := by
      rw [List.isPrefixOf_iff_prefix, String.data_append]
      exact List.prefix_append _ _
    rw [if_pos hpre]
    congr 1
    rw [string_eq_iff_data]
    show ((p ++ r).data.drop p.data.length) = r.data
    rw [String.data_append, List.drop_left]

/-- Appending on the left is injective on strings. -/
theorem string_append_left_cancel {p a b : String} (h : p ++ a = p ++ b) : a = b := by
  rw [string_eq_iff_data, String.data_append, String.data_append] at h
  rw [string_eq_iff_data]
  exact List.append_cancel_left h

/-- `rsplitOnceList` finds nothing exactly when the separator does not
occur. -/
theorem rsplitOnceList_eq_none {sep : Char} {l : List Char} :
    rsplitOnceList sep l = none ↔ sep ∉ l := by
  induction l with
  | nil => simp [rsplitOnceList]
  | cons c cs ih =>
    rw [List.mem_cons]
    cases h : rsplitOnceList sep cs with
    | some p =>
      obtain ⟨p1, p2⟩ := p
      have hmem : sep ∈ cs := by
        by_contra hn
        rw [ih.mpr hn] at h
        exact Option.noConfusion h
      simp only [rsplitOnceList, h]
      constructor
      · intro habs; exact Option.noConfusion habs
      · intro hnot; exact absurd (Or.inr hmem) hnot
    | none =>
      have hnotin : sep ∉ cs := ih.mp h
      simp only [rsplitOnceList, h]
      by_cases hc : c = sep
      · rw [if_pos hc]
        constructor
        · intro habs; exact Option.noConfusion habs
        · intro hnot; exact absurd (Or.inl hc.symm) hnot
      · rw [if_neg hc]
        constructor
        · intro _ hor; exact hor.elim (fun he => hc he.symm) hnotin
        · intro _; rfl

/-- `rsplitOnce` finds nothing exactly when the separator does not occur
in the string. -/
theorem rsplitOnce_eq_none {sep : Char} {s : String} :
    rsplitOnce sep s = none ↔ sep ∉ s.data := by
  rw [← @rsplitOnceList_eq_none sep s.data]
  unfold rsplitOnce
  cases rsplitOnceList sep s.data <;> simp

/-! ## Invariants of the matcher loop -/

/-- Any match the loop returns either originates in the catalogue slice it
walked or was the best match it started from. -/
theorem stripPrefixGo_origin {input : String} {pkgs : Catalogue}
    {acc : Option (PackageIdx × String)} {i : PackageIdx} {rest : String}
    (h : stripPrefixGo input pkgs acc = some (i, rest)) :
    (∃ pkg, (i, pkg) ∈ pkgs ∧ stripPrefixStr pkg.name input = some rest) ∨
      acc = some (i, rest) := by
  induction pkgs generalizing acc with
  | nil => exact Or.inr h
  | cons hd tl ih =>
    obtain ⟨k, p⟩ := hd
    cases hstrip : stripPrefixStr p.name input with
    | none =>
      simp only [stripPrefixGo, hstrip] at h
      rcases ih h with ⟨pkg, hm, hs⟩ | hacc
      · exact Or.inl ⟨pkg, List.mem_cons_of_mem _ hm, hs⟩
      · exact Or.inr hacc
    | some rest_p =>
      have fromNew : stripPrefixGo input tl (some (k, rest_p)) = some (i, rest) →
          (∃ pkg, (i, pkg) ∈ (k, p) :: tl ∧ stripPrefixStr pkg.name input = some rest) := by
        intro h'
        rcases ih h' with ⟨pkg, hm, hs⟩ | hacc
        · exact ⟨pkg, List.mem_cons_of_mem _ hm, hs⟩
        · injection hacc with hacc
          obtain ⟨h1, h2⟩ := Prod.mk.injEq .. ▸ hacc
          refine ⟨p, ?_, ?_⟩
          · rw [← h1]; exact List.mem_cons_self _ _
          · rw [← h2]; exact hstrip
      cases acc with
      | none =>
        simp only [stripPrefixGo, hstrip] at h
        exact Or.inl (fromNew h)
      | some pair =>
        obtain ⟨bi, b⟩ := pair
        simp only [stripPrefixGo, hstrip] at h
        by_cases hle : b.length ≤ rest_p.length
        · rw [if_pos hle] at h
          rcases ih h with ⟨pkg, hm, hs⟩ | hacc
          · exact Or.inl ⟨pkg, List.mem_cons_of_mem _ hm, hs⟩
          · exact Or.inr hacc
        · rw [if_neg hle] at h
          exact Or.inl (fromNew h)

/-- Starting from a best match, the loop either keeps it or ends with a
strictly shorter remainder. -/
theorem stripPrefixGo_strict {input : String} {pkgs : Catalogue}
    {i₀ i : PackageIdx} {b₀ rest : String}
    (h : stripPrefixGo input pkgs (some (i₀, b₀)) = some (i, rest)) :
    (i = i₀ ∧ rest = b₀) ∨ rest.length < b₀.length := by
  induction pkgs generalizing i₀ b₀ with
  | nil =>
    injection h with h
    obtain ⟨h1, h2⟩ := Prod.mk.injEq .. ▸ h
    exact Or.inl ⟨h1.symm, h2.symm⟩
  | cons hd tl ih =>
    obtain ⟨k, p⟩ := hd
    cases hstrip : stripPrefixStr p.name input with
    | none =>
      simp only [stripPrefixGo, hstrip] at h
      exact ih h
    | some rest_p =>
      simp only [stripPrefixGo, hstrip] at h
      by_cases hle : b₀.length ≤ rest_p.length
      · rw [if_pos hle] at h
        exact ih h
      · rw [if_neg hle] at h
        rcases ih h with ⟨_, h2⟩ | hlt
        · right; rw [h2]; omega
        · right; omega

/-- The remainder the loop returns never gets longer than the best match
it started from. -/
theorem stripPrefixGo_length_le {input : String} {pkgs : Catalogue}
    {i₀ i : PackageIdx} {b₀ rest : String}
    (h : stripPrefixGo input pkgs (some (i₀, b₀)) = some (i, rest)) :
    rest.length ≤ b₀.length := by
  rcases stripPrefixGo_strict h with ⟨_, h2⟩ | hlt
  · rw [h2]
  · omega

/-- The remainder the loop returns is no longer than the remainder of any
match in the slice it walked. -/
theorem stripPrefixGo_min {input : String} {pkgs : Catalogue}
    {acc : Option (PackageIdx × String)} {i : PackageIdx} {rest : String}
    (h : stripPrefixGo input pkgs acc = some (i, rest)) :
    ∀ j q r, (j, q) ∈ pkgs → stripPrefixStr q.name input = some r →
      rest.length ≤ r.length := by
  induction pkgs generalizing acc with
  | nil => intro j q r hm; exact absurd hm (List.not_mem_nil _)
  | cons hd tl ih =>
    obtain ⟨k, p⟩ := hd
    intro j q r hm hs
    cases hstrip : stripPrefixStr p.name input with
    | none =>
      simp only [stripPrefixGo, hstrip] at h
      rcases List.mem_cons.mp hm with heq | hmem
      · obtain ⟨_, h2⟩ := Prod.mk.injEq .. ▸ heq
        rw [h2] at hs
        rw [hs] at hstrip
        exact absurd hstrip (by simp)
      · exact ih h j q r hmem hs
    | some rest_p =>
      rcases List.mem_cons.mp hm with heq | hmem
      · -- the head is the match under scrutiny: r = rest_p
        obtain ⟨_, h2⟩ := Prod.mk.injEq .. ▸ heq
        rw [h2] at hs
        rw [hs] at hstrip
        injection hstrip with hstrip
        subst hstrip
        cases acc with
        | none =>
          simp only [stripPrefixGo, hs] at h
          exact stripPrefixGo_length_le h
        | some pair =>
          obtain ⟨bi, b⟩ := pair
          simp only [stripPrefixGo, hs] at h
          by_cases hle : b.length ≤ r.length
          · rw [if_pos hle] at h
            exact le_trans (stripPrefixGo_length_le h) hle
          · rw [if_neg hle] at h
            exact stripPrefixGo_length_le h
      · -- the match lives in the tail: use the induction hypothesis
        cases acc with
        | none =>
          simp only [stripPrefixGo, hstrip] at h
          exact ih h j q r hmem hs
        | some pair =>
          obtain ⟨bi, b⟩ := pair
          simp only [stripPrefixGo, hstrip] at h
          by_cases hle : b.length ≤ rest_p.length
          · rw [if_pos hle] at h
            exact ih h j q r hmem hs
          · rw [if_neg hle] at h
            exact ih h j q r hmem hs

/-- When nothing in the slice matches, the loop returns its starting best
match unchanged. -/
theorem stripPrefixGo_none {input : String} {pkgs : Catalogue}
    {acc : Option (PackageIdx × String)}
    (hnone : ∀ j q, (j, q) ∈ pkgs → stripPrefixStr q.name input = none) :
    stripPrefixGo input pkgs acc = acc := by
  induction pkgs generalizing acc with
  | nil => rfl
  | cons hd tl ih =>
    obtain ⟨k, p⟩ := hd
    have hk : stripPrefixStr p.name input = none :=
      hnone k p (List.mem_cons_self _ _)
    simp only [stripPrefixGo, hk]
    exact ih (fun j q hm => hnone j q (List.mem_cons_of_mem _ hm))

/-- Among matches whose remainders tie in length, the loop keeps the one
it met first: with ascending keys and a starting best match below every
key of the slice, the returned index is at most the index of any match of
the same remainder length. -/
theorem stripPrefixGo_tie {input : String} {pkgs : Catalogue}
    {acc : Option (PackageIdx × String)} {i : PackageIdx} {rest : String}
    (hsorted : List.Pairwise (fun a b => a.1 < b.1) pkgs)
    (hacc : ∀ i₀ b₀, acc = some (i₀, b₀) → ∀ jq ∈ pkgs, i₀ < jq.1)
    (h : stripPrefixGo input pkgs acc = some (i, rest)) :
    ∀ j q r, (j, q) ∈ pkgs → stripPrefixStr q.name input = some r →
      r.length = rest.length → i ≤ j := by
  induction pkgs generalizing acc with
  | nil => intro j q r hm; exact absurd hm (List.not_mem_nil _)
  | cons hd tl ih =>
    obtain ⟨k, p⟩ := hd
    obtain ⟨hk_lt, htl⟩ := List.pairwise_cons.mp hsorted
    intro j q r hm hs hlen
    cases hstrip : stripPrefixStr p.name input with
    | none =>
      simp only [stripPrefixGo, hstrip] at h
      rcases List.mem_cons.mp hm with heq | hmem
      · obtain ⟨_, h2⟩ := Prod.mk.injEq .. ▸ heq
        rw [h2] at hs
        rw [hs] at hstrip
        exact absurd hstrip (by simp)
      · exact ih htl (fun i₀ b₀ he jq hjq => hacc i₀ b₀ he jq (List.mem_cons_of_mem _ hjq))
          h j q r hmem hs hlen
    | some rest_p =>
      -- the invariant for the accumulator passed into the tail
      have hnew : ∀ i₀ b₀, (some (k, rest_p) : Option (PackageIdx × String)) = some (i₀, b₀) →
          ∀ jq ∈ tl, i₀ < jq.1 := by
        intro i₀ b₀ he jq hjq
        injection he with he
        obtain ⟨h1, _⟩ := Prod.mk.injEq .. ▸ he
        rw [← h1]
        exact hk_lt jq hjq
      have hfromNew : stripPrefixGo input tl (some (k, rest_p)) = some (i, rest) →
          r.length = rest.length → stripPrefixStr q.name input = some r →
          (j, q) = (k, p) → i ≤ j := by
        intro h' hlen' hs' heq
        obtain ⟨h1, h2⟩ := Prod.mk.injEq .. ▸ heq
        rw [h2] at hs'
        rw [hs'] at hstrip
        injection hstrip with hstrip
        rcases stripPrefixGo_strict h' with ⟨hi, _⟩ | hlt
        · rw [hi, h1]
        · rw [hstrip] at hlen'
          omega
      rcases List.mem_cons.mp hm with heq | hmem
      · -- tie with the head entry
        cases acc with
        | none =>
          simp only [stripPrefixGo, hstrip] at h
          exact hfromNew h hlen hs heq
        | some pair =>
          obtain ⟨bi, b⟩ := pair
          simp only [stripPrefixGo, hstrip] at h
          by_cases hle : b.length ≤ rest_p.length
          · rw [if_pos hle] at h
            obtain ⟨h1, h2⟩ := Prod.mk.injEq .. ▸ heq
            rw [h2] at hs
            rw [hs] at hstrip
            injection hstrip with hstrip
            rcases stripPrefixGo_strict h with ⟨hi, hrest⟩ | hlt
            · -- the starting best match wins: its key is below the head key
              rw [hi, h1]
              exact le_of_lt (hacc bi b rfl (k, p) (List.mem_cons_self _ _))
            · rw [hstrip] at hlen
              omega
          · rw [if_neg hle] at h
            exact hfromNew h hlen hs heq
      · -- tie with a tail entry
        cases acc with
        | none =>
          simp only [stripPrefixGo, hstrip] at h
          exact ih htl hnew h j q r hmem hs hlen
        | some pair =>
          obtain ⟨bi, b⟩ := pair
          simp only [stripPrefixGo, hstrip] at h
          by_cases hle : b.length ≤ rest_p.length
          · rw [if_pos hle] at h
            exact ih htl
              (fun i₀ b₀ he jq hjq => hacc i₀ b₀ (by rw [he]) jq (List.mem_cons_of_mem _ hjq))
              h j q r hmem hs hlen
          · rw [if_neg hle] at h
            exact ih htl hnew h j q r hmem hs hlen

/-! ## Characters of a well-formed version string -/

/-- A successful numeric-component parse splits its input into the digit
run it consumed and the rest. -/
theorem parseNumericComponent_split {cs : List Char} {n : Nat} {rest : List Char}
    (h : parseNumericComponent cs = .ok (n, rest)) :
    cs = cs.takeWhile Char.isDigit ++ rest ∧
      ∀ c ∈ cs.takeWhile Char.isDigit, c.isDigit = true := by
  have hrest : rest = cs.dropWhile Char.isDigit := by
    unfold parseNumericComponent at h
    dsimp only at h
    split at h
    · exact absurd h (by simp)
    · split at h
      · exact absurd h (by simp)
      · split at h
        · injection h with h
          obtain ⟨_, h2⟩ := Prod.mk.injEq .. ▸ h
          exact h2.symm
        · exact absurd h (by simp)
  constructor
  · rw [hrest, List.takeWhile_append_dropWhile]
  · intro c hc
    exact List.mem_takeWhile_imp hc

/-- Every character a successful pre-release/build parse consumed is an
identifier character, a dot, or the leading `-` or `+` marker. -/
theorem parsePreBuild_chars {cs : List Char} {pb : String × String}
    (h : parsePreBuild cs = .ok pb) :
    ∀ c ∈ cs, isIdentChar c = true ∨ c = '.' ∨ c = '-' ∨ c = '+' := by
  unfold parsePreBuild at h
  split at h
  · -- the input was empty
    intro c hc
    exact absurd hc (List.not_mem_nil _)
  · -- the input started with the pre-release marker
    rename_i rest
    dsimp only at h
    split at h
    · rename_i hall
      obtain ⟨hids, _⟩ := Bool.and_eq_true .. ▸ hall
      intro c hc
      rcases List.mem_cons.mp hc with heq | hmem
      · exact Or.inr (Or.inr (Or.inl heq))
      have hsplit : rest = rest.takeWhile (fun c => c != '+') ++
          rest.dropWhile (fun c => c != '+') :=
        (List.takeWhile_append_dropWhile _ _).symm
      rcases List.mem_append.mp (hsplit ▸ hmem) with htake | hdrop
      · have := List.all_eq_true.mp hids c htake
        rcases Bool.or_eq_true .. ▸ this with hid | hdot
        · exact Or.inl hid
        · exact Or.inr (Or.inl (by simpa using hdot))
      -- the dropped part is empty, or `+` followed by build characters
      revert hdrop
      split at h
      · rename_i hdw
        rw [hdw]
        intro hdrop
        exact absurd hdrop (List.not_mem_nil _)
      · rename_i ds hdw
        rw [hdw]
        intro hdrop
        rcases List.mem_cons.mp hdrop with heq | hmem2
        · exact Or.inr (Or.inr (Or.inr heq))
        split at h
        · rename_i hball
          obtain ⟨hbids, _⟩ := Bool.and_eq_true .. ▸ hball
          have := List.all_eq_true.mp hbids c hmem2
          rcases Bool.or_eq_true .. ▸ this with hid | hdot
          · exact Or.inl hid
          · exact Or.inr (Or.inl (by simpa using hdot))
        · exact absurd h (by simp)
      · exact absurd h (by simp)
    · exact absurd h (by simp)
  · -- the input started with the build marker
    rename_i brest
    split at h
    · rename_i hall
      obtain ⟨hids, _⟩ := Bool.and_eq_true .. ▸ hall
      intro c hc
      rcases List.mem_cons.mp hc with heq | hmem
      · exact Or.inr (Or.inr (Or.inr heq))
      · have := List.all_eq_true.mp hids c hmem
        rcases Bool.or_eq_true .. ▸ this with hid | hdot
        · exact Or.inl hid
        · exact Or.inr (Or.inl (by simpa using hdot))
    · exact absurd h (by simp)
  · -- anything else fails to parse
    exact absurd h (by simp)

/-- No character of a string that parses as a semantic version is a
slash. -/
theorem parseVersionChars_no_slash {cs : List Char} {V : SemVer}
    (h : parseVersionChars cs = .ok V) :
    '/' ∉ cs := by
  have hdig : ∀ c : Char, c.isDigit = true → c ≠ '/' := by
    intro c hcd he
    subst he
    exact absurd hcd (by decide)
  have hcls : ∀ c : Char, (isIdentChar c = true ∨ c = '.' ∨ c = '-' ∨ c = '+') →
      c ≠ '/' := by
    intro c hcl he
    subst he
    rcases hcl with hid | h1 | h1 | h1
    · exact absurd hid (by decide)
    all_goals exact absurd h1 (by decide)
  unfold parseVersionChars at h
  split at h
  · exact absurd h (by simp)
  rename_i major cs1 h1
  obtain ⟨hsplit1, hdigs1⟩ := parseNumericComponent_split h1
  split at h
  case _ cs2 =>
    split at h
    · exact absurd h (by simp)
    rename_i minor cs3 h2
    obtain ⟨hsplit2, hdigs2⟩ := parseNumericComponent_split h2
    split at h
    case _ cs4 =>
      split at h
      · exact absurd h (by simp)
      rename_i patch cs5 h3
      obtain ⟨hsplit3, hdigs3⟩ := parseNumericComponent_split h3
      cases h4 : parsePreBuild cs5 with
      | error e => rw [h4] at h; exact absurd h (by simp)
      | ok pb =>
        intro hmem
        rw [hsplit1] at hmem
        rcases List.mem_append.mp hmem with hin | hin
        · exact hdig _ (hdigs1 _ hin) rfl
        rcases List.mem_cons.mp hin with he | hin
        · exact absurd he.symm (by decide)
        rw [hsplit2] at hin
        rcases List.mem_append.mp hin with hin2 | hin2
        · exact hdig _ (hdigs2 _ hin2) rfl
        rcases List.mem_cons.mp hin2 with he | hin2
        · exact absurd he.symm (by decide)
        rw [hsplit3] at hin2
        rcases List.mem_append.mp hin2 with hin3 | hin3
        · exact hdig _ (hdigs3 _ hin3) rfl
        · exact hcls _ (parsePreBuild_chars h4 _ hin3) rfl
    case _ => exact absurd h (by simp)
  case _ => exact absurd h (by simp)

/-! ## Further small helpers -/

/-- Stripping a `v` from `"v" ++ s` yields `s`. -/
theorem vStrip_v_append (s : String) : vStrip ("v" ++ s) = s := by
  unfold vStrip
  rw [stripPrefixStr_eq_some.mpr rfl]

/-- The matcher finds nothing in an empty catalogue. -/
theorem strip_prefix_package_nil (input : String) :
    strip_prefix_package input [] = none := rfl


/-- A present tag goes through the slash form, the dash form and the
version tail: the unfolding equation of `parse_tag` on `some t`. -/
theorem parse_tag_some (packages : Catalogue) (t : String) :
    parse_tag packages (some t) =
      finishTag packages t (dashStage packages (slashStage packages t)) := rfl

/-- `parse_tag` never returns the `NoTagMatch` error: when the version
parses, either a package or the unified version is set, so the defensive
guard at src/lib.rs:114-117 never fires. -/
theorem parse_tag_not_noTagMatch (packages : Catalogue) (t : String) :
    isNoTagMatch (parse_tag packages (some t)) = false := by
  rw [parse_tag_some]
  unfold finishTag
  split
  · rfl
  rename_i version hparse
  dsimp only
  split
  · rename_i e heq
    -- the version check can only fail with a contradiction error
    split at heq
    · split at heq
      · split at heq
        · split at heq
          · injection heq with heq
            rw [← heq]
            rfl
          · exact absurd heq (by simp)
        · exact absurd heq (by simp)
      · exact absurd heq (by simp)
    · exact absurd heq (by simp)
  rename_i av heq
  split
  · rename_i hguard
    -- the guard condition is never true
    exfalso
    rw [Bool.and_eq_true] at hguard
    obtain ⟨h1, h2⟩ := hguard
    rw [Option.isNone_iff_eq_none] at h1
    rw [h1] at heq
    dsimp only at heq
    injection heq with heq
    rw [← heq] at h2
    exact absurd h2 (by simp)
  · rfl

/-! ## The claims -/

/-- C1: for every catalogue and present tag, an `Ok` result of
`parse_tag` never has both `package` and `version` set; exactly one of
the two is set. -/
theorem parse_tag_package_version_exclusive (packages : Catalogue) (t : String)
    (result : PartialAnnouncementTag)
    (h : parse_tag packages (some t) = .ok result) :
    (result.package.isSome = true ∧ result.version = none) ∨
      (result.package = none ∧ result.version.isSome = true) := by
  rw [parse_tag_some] at h
  unfold finishTag at h
  split at h
  · exact absurd h (by simp)
  rename_i version hparse
  dsimp only at h
  split at h
  · exact absurd h (by simp)
  rename_i av heq
  split at h
  · exact absurd h (by simp)
  injection h with h
  subst h
  cases hst1 : (dashStage packages (slashStage packages t)).1 with
  | none =>
    rw [hst1] at heq
    dsimp only at heq
    injection heq with heq
    right
    exact ⟨rfl, by rw [← heq]; rfl⟩
  | some pkg_idx =>
    rw [hst1] at heq
    dsimp only at heq
    have hav : av = none := by
      split at heq
      · split at heq
        · split at heq
          · exact absurd heq (by simp)
          · injection heq with heq; exact heq.symm
        · injection heq with heq; exact heq.symm
      · injection heq with heq; exact heq.symm
    subst hav
    left
    exact ⟨rfl, rfl⟩

/-- C1 witness: the exclusivity theorem instantiated at the concrete
unified announcement for tag `v1.0.0` with an empty catalogue. -/
theorem parse_tag_package_version_exclusive_witness :
    ((PartialAnnouncementTag.mk (some "v1.0.0") (some (SemVer.mk 1 0 0 "" "")) none
        false).package.isSome = true ∧
      (PartialAnnouncementTag.mk (some "v1.0.0") (some (SemVer.mk 1 0 0 "" "")) none
        false).version = none) ∨
    ((PartialAnnouncementTag.mk (some "v1.0.0") (some (SemVer.mk 1 0 0 "" "")) none
        false).package = none ∧
      (PartialAnnouncementTag.mk (some "v1.0.0") (some (SemVer.mk 1 0 0 "" "")) none
        false).version.isSome = true) :=
  parse_tag_package_version_exclusive [] "v1.0.0"
    (PartialAnnouncementTag.mk (some "v1.0.0") (some (SemVer.mk 1 0 0 "" "")) none false)
    rfl

/-- C2: a match returned by `strip_prefix_package` strips an actual
package name of the catalogue from the input, no other matching package
leaves a strictly shorter remainder, a catalogue with no matching name
yields nothing, and on catalogue `{my-app, my-app-helper}` with input
`my-app-helper-v2.0.0` the longest name `my-app-helper` wins. -/
theorem strip_prefix_package_spec (input : String) (packages : Catalogue) :
    (∀ i rest, strip_prefix_package input packages = some (i, rest) →
      (∃ pkg, (i, pkg) ∈ packages ∧ stripPrefixStr pkg.name input = some rest) ∧
        ∀ j q r, (j, q) ∈ packages → stripPrefixStr q.name input = some r →
          rest.length ≤ r.length) ∧
    ((∀ j q, (j, q) ∈ packages → stripPrefixStr q.name input = none) →
      strip_prefix_package input packages = none) ∧
    strip_prefix_package "my-app-helper-v2.0.0"
      [(0, PackageInfo.mk "my-app" none), (1, PackageInfo.mk "my-app-helper" none)] =
      some (1, "-v2.0.0") ∧
    parse_tag [(0, PackageInfo.mk "my-app" none), (1, PackageInfo.mk "my-app-helper" none)]
      (some "my-app-helper-v2.0.0") =
      .ok ⟨some "my-app-helper-v2.0.0", none, some 1, false⟩ := by
  refine ⟨?_, ?_, rfl, rfl⟩
  · intro i rest h
    refine ⟨?_, stripPrefixGo_min h⟩
    rcases stripPrefixGo_origin h with horig | habs
    · exact horig
    · exact absurd habs (by simp)
  · intro hnone
    exact stripPrefixGo_none hnone

/-- C10: when several packages of a key-sorted catalogue match the input
with remainders of equal length, `strip_prefix_package` returns the one
with the smallest key, because a candidate replaces the current best only
on a strictly shorter remainder. -/
theorem strip_prefix_package_tie_break (input : String) (packages : Catalogue)
    (i : PackageIdx) (rest : String)
    (hsorted : List.Pairwise (fun a b => a.1 < b.1) packages)
    (h : strip_prefix_package input packages = some (i, rest)) :
    ∀ j q r, (j, q) ∈ packages → stripPrefixStr q.name input = some r →
      r.length = rest.length → i ≤ j :=
  stripPrefixGo_tie hsorted (fun _ _ habs => absurd habs (by simp)) h

/-- C10 witness: two distinct catalogue entries named `my-app` both match
`my-app-v1` with the same remainder; the loop returns key 0, below key 1. -/
theorem strip_prefix_package_tie_break_witness :
    strip_prefix_package "my-app-v1"
      [(0, PackageInfo.mk "my-app" none), (1, PackageInfo.mk "my-app" none)] =
      some (0, "-v1") ∧ (0 : PackageIdx) ≤ 1 :=
  ⟨rfl,
    strip_prefix_package_tie_break "my-app-v1"
      [(0, PackageInfo.mk "my-app" none), (1, PackageInfo.mk "my-app" none)] 0 "-v1"
      (by simp) rfl 1 (PackageInfo.mk "my-app" none) "-v1" (by simp) rfl rfl⟩

/-- C3: a tag containing `/` is split at its last `/`; the candidate
segment is the component of the front part after its own last `/` (the
whole front part when it has none); the announcing package is set exactly
when the matcher consumes the whole candidate segment; the suffix always
becomes the working remainder; and `release/my-app/v1.0.0` with a
catalogue holding `my-app` at version 1.0.0 announces `my-app`. -/
theorem slash_form_spec (packages : Catalogue) (t pfx suffix : String)
    (h : rsplitOnce '/' t = some (pfx, suffix)) :
    (slashStage packages t).2 = suffix ∧
    (∀ p2 cand, rsplitOnce '/' pfx = some (p2, cand) → slashCandidate pfx = cand) ∧
    (rsplitOnce '/' pfx = none → slashCandidate pfx = pfx) ∧
    (∀ pkg, (slashStage packages t).1 = some pkg ↔
      strip_prefix_package (slashCandidate pfx) packages = some (pkg, "")) ∧
    parse_tag packages (some t) =
      finishTag packages t (dashStage packages (slashStage packages t)) ∧
    parse_tag [(0, PackageInfo.mk "my-app" (some (SemVer.mk 1 0 0 "" "")))]
      (some "release/my-app/v1.0.0") =
      .ok ⟨some "release/my-app/v1.0.0", none, some 0, false⟩ := by
  have hslash : slashStage packages t =
      (match strip_prefix_package (slashCandidate pfx) packages with
       | some (package, rest) => if rest = "" then some package else none
       | none => none, suffix) := by
    unfold slashStage slashCandidate
    rw [h]
  refine ⟨by rw [hslash], ?_, ?_, ?_, rfl, rfl⟩
  · intro p2 cand hc
    unfold slashCandidate
    rw [hc]
  · intro hc
    unfold slashCandidate
    rw [hc]
  · intro pkg
    rw [hslash]
    cases hsp : strip_prefix_package (slashCandidate pfx) packages with
    | none =>
      dsimp only
      constructor
      · intro habs; exact absurd habs (by simp)
      · intro habs; exact absurd habs (by simp)
    | some pr =>
      obtain ⟨pkg', rest⟩ := pr
      dsimp only
      by_cases hr : rest = ""
      · subst hr
        rw [if_pos rfl]
        constructor
        · intro hp; injection hp with hp; rw [hp]
        · intro hp
          injection hp with hp
          obtain ⟨h1, _⟩ := Prod.mk.injEq .. ▸ hp
          rw [h1]
      · rw [if_neg hr]
        constructor
        · intro habs; exact absurd habs (by simp)
        · intro hp
          injection hp with hp
          obtain ⟨_, h2⟩ := Prod.mk.injEq .. ▸ hp
          exact absurd h2 hr

/-- C3 witness: the slash-form theorem instantiated at the tag
`release/my-app/v1.0.0`. -/
theorem slash_form_spec_witness :
    (slashStage [(0, PackageInfo.mk "my-app" (some (SemVer.mk 1 0 0 "" "")))]
      "release/my-app/v1.0.0").2 = "v1.0.0" :=
  (slash_form_spec [(0, PackageInfo.mk "my-app" (some (SemVer.mk 1 0 0 "" "")))]
    "release/my-app/v1.0.0" "release/my-app" "v1.0.0" rfl).1

/-- C4: the dash form leaves a slash-form announcement alone; without a
`/` the working remainder is the whole tag; on a bare remainder the dash
form announces a package exactly when the matcher finds it followed
immediately by `-`, consuming both; otherwise it changes nothing. -/
theorem dash_form_spec (packages : Catalogue) :
    (∀ t, rsplitOnce '/' t = none → slashStage packages t = (none, t)) ∧
    (∀ p s, dashStage packages (some p, s) = (some p, s)) ∧
    (∀ s pkg r, dashStage packages (none, s) = (some pkg, r) ↔
      strip_prefix_package s packages = some (pkg, "-" ++ r)) ∧
    (∀ s, (dashStage packages (none, s)).1 = none →
      dashStage packages (none, s) = (none, s)) := by
  refine ⟨?_, fun p s => rfl, ?_, ?_⟩
  · intro t ht
    unfold slashStage
    rw [ht]
  · intro s pkg r
    unfold dashStage
    dsimp only
    cases hsp : strip_prefix_package s packages with
    | none =>
      dsimp only
      constructor
      · intro habs
        injection habs with h1 _
        exact absurd h1 (by simp)
      · intro habs; exact absurd habs (by simp)
    | some pr =>
      obtain ⟨pkg', suffix⟩ := pr
      dsimp only
      cases hdash : stripPrefixStr "-" suffix with
      | none =>
        dsimp only
        constructor
        · intro habs
          injection habs with h1 _
          exact absurd h1 (by simp)
        · intro hp
          injection hp with hp
          obtain ⟨_, h2⟩ := Prod.mk.injEq .. ▸ hp
          have := stripPrefixStr_eq_some.mpr h2
          rw [hdash] at this
          exact absurd this (by simp)
      | some suffix' =>
        dsimp only
        have hs : suffix = "-" ++ suffix' := stripPrefixStr_eq_some.mp hdash
        constructor
        · intro hp
          injection hp with h1 h2
          injection h1 with h1
          rw [← h1, ← h2, hs]
        · intro hp
          injection hp with hp
          obtain ⟨h1, h2⟩ := Prod.mk.injEq .. ▸ hp
          have hsr : suffix' = r := string_append_left_cancel (by rw [← hs, h2])
          rw [h1, hsr]
  · intro s
    unfold dashStage
    dsimp only
    cases hsp : strip_prefix_package s packages with
    | none => intro _; rfl
    | some pr =>
      obtain ⟨pkg', suffix⟩ := pr
      dsimp only
      cases hdash : stripPrefixStr "-" suffix with
      | none => intro _; rfl
      | some suffix' =>
        dsimp only
        intro habs
        exact absurd habs (by simp)

/-- C5: when an announcing package with a recorded version is identified,
`parse_tag` fails with `ContradictoryTagVersion` carrying tag, package
name and both versions exactly when the recorded version differs from the
parsed one; with equal versions, or no recorded version, it succeeds as a
package-scoped announcement with no unified version. With `my-app`
recorded at 1.0.0, tag `my-app-v1.0.0` succeeds and `my-app-v2.0.0`
yields the contradiction error. -/
theorem contradictory_tag_version_spec (packages : Catalogue) (t : String)
    (st : Option PackageIdx × String) (pkg_idx : PackageIdx) (package : PackageInfo)
    (version : SemVer)
    (hst : dashStage packages (slashStage packages t) = st)
    (hpkg : st.1 = some pkg_idx)
    (hget : mapGet packages pkg_idx = some package)
    (hv : SemVer.parse (vStrip st.2) = .ok version) :
    (∀ real, package.version = some real →
      (real ≠ version →
        parse_tag packages (some t) =
          .error (.ContradictoryTagVersion t package.name version real)) ∧
      (real = version →
        parse_tag packages (some t) =
          .ok ⟨some t, none, some pkg_idx, version.pre != ""⟩)) ∧
    (package.version = none →
      parse_tag packages (some t) =
        .ok ⟨some t, none, some pkg_idx, version.pre != ""⟩) ∧
    parse_tag [(0, PackageInfo.mk "my-app" (some (SemVer.mk 1 0 0 "" "")))]
      (some "my-app-v1.0.0") =
      .ok ⟨some "my-app-v1.0.0", none, some 0, false⟩ ∧
    parse_tag [(0, PackageInfo.mk "my-app" (some (SemVer.mk 1 0 0 "" "")))]
      (some "my-app-v2.0.0") =
      .error (.ContradictoryTagVersion "my-app-v2.0.0" "my-app" (SemVer.mk 2 0 0 "" "")
        (SemVer.mk 1 0 0 "" "")) := by
  refine ⟨?_, ?_, rfl, rfl⟩
  · intro real hreal
    constructor
    · intro hne
      rw [parse_tag_some, hst]
      unfold finishTag
      rw [hv]
      dsimp only
      rw [hpkg]
      dsimp only
      rw [hget]
      dsimp only
      rw [hreal]
      dsimp only
      rw [if_pos (by rwa [bne_iff_ne])]
    · intro he
      subst he
      rw [parse_tag_some, hst]
      unfold finishTag
      rw [hv]
      dsimp only
      rw [hpkg]
      dsimp only
      rw [hget]
      dsimp only
      rw [hreal]
      dsimp only
      rw [if_neg (by simp)]
      dsimp only
      rw [if_neg (by simp)]
  · intro hnone
    rw [parse_tag_some, hst]
    unfold finishTag
    rw [hv]
    dsimp only
    rw [hpkg]
    dsimp only
    rw [hget]
    dsimp only
    rw [hnone]
    dsimp only
    rw [if_neg (by simp)]

/-- C5 witness: the contradiction branch instantiated at `my-app`
recorded 1.0.0 against tag `my-app-v2.0.0`. -/
theorem contradictory_tag_version_spec_witness :
    parse_tag [(0, PackageInfo.mk "my-app" (some (SemVer.mk 1 0 0 "" "")))]
      (some "my-app-v2.0.0") =
      .error (.ContradictoryTagVersion "my-app-v2.0.0" "my-app" (SemVer.mk 2 0 0 "" "")
        (SemVer.mk 1 0 0 "" "")) :=
  ((contradictory_tag_version_spec
      [(0, PackageInfo.mk "my-app" (some (SemVer.mk 1 0 0 "" "")))] "my-app-v2.0.0"
      (some 0, "v2.0.0") 0 (PackageInfo.mk "my-app" (some (SemVer.mk 1 0 0 "" "")))
      (SemVer.mk 2 0 0 "" "") rfl rfl rfl rfl).1
    (SemVer.mk 1 0 0 "" "") rfl).1 (by decide)

/-- C6: when the working remainder after the slash form, the dash form
and the `v`-strip does not parse as a semantic version, `parse_tag`
terminates with `TagVersionParse` carrying the original tag and the parse
diagnostic; `not-a-version` with an empty catalogue is such a tag. -/
theorem tag_version_parse_spec (packages : Catalogue) (t : String)
    (st : Option PackageIdx × String) (e : String)
    (hst : dashStage packages (slashStage packages t) = st)
    (he : SemVer.parse (vStrip st.2) = .error e) :
    parse_tag packages (some t) = .error (.TagVersionParse t e) ∧
    parse_tag [] (some "not-a-version") =
      .error (.TagVersionParse "not-a-version" "expected numeric component") := by
  refine ⟨?_, rfl⟩
  rw [parse_tag_some, hst]
  unfold finishTag
  rw [he]

/-- C6 witness: the version-parse failure instantiated at the tag
`not-a-version` with an empty catalogue. -/
theorem tag_version_parse_spec_witness :
    parse_tag [] (some "not-a-version") =
      .error (.TagVersionParse "not-a-version" "expected numeric component") :=
  (tag_version_parse_spec [] "not-a-version" (none, "not-a-version")
    "expected numeric component" rfl rfl).1

/-- C7: for every string that parses as a semantic version `V`, the tag
`"v" ++ s` with an empty catalogue yields a unified announcement with
version `V`, no package, and the prerelease flag set exactly when `V`
carries a pre-release component. -/
theorem unified_version_roundtrip (s : String) (V : SemVer)
    (h : SemVer.parse s = .ok V) :
    parse_tag [] (some ("v" ++ s)) =
      .ok ⟨some ("v" ++ s), some V, none, V.pre != ""⟩ := by
  have hnoslash : '/' ∉ ("v" ++ s).data := by
    rw [String.data_append]
    intro hmem
    rcases List.mem_append.mp hmem with h1 | h1
    · exact absurd h1 (by decide)
    · exact parseVersionChars_no_slash h h1
  have hsl : slashStage [] ("v" ++ s) = (none, "v" ++ s) := by
    unfold slashStage
    rw [rsplitOnce_eq_none.mpr hnoslash]
  have hds : dashStage [] (slashStage [] ("v" ++ s)) = (none, "v" ++ s) := by
    rw [hsl]
    rfl
  rw [parse_tag_some, hds]
  unfold finishTag
  dsimp only
  rw [vStrip_v_append, h]
  dsimp only
  rw [if_neg (by simp)]

/-- C7 witness: the round-trip theorem instantiated at the pre-release
version 1.2.3-beta.1. -/
theorem unified_version_roundtrip_witness :
    parse_tag [] (some ("v" ++ "1.2.3-beta.1")) =
      .ok ⟨some ("v" ++ "1.2.3-beta.1"), some (SemVer.mk 1 2 3 "beta.1" ""), none,
        (SemVer.mk 1 2 3 "beta.1" "").pre != ""⟩ :=
  unified_version_roundtrip "1.2.3-beta.1" (SemVer.mk 1 2 3 "beta.1" "") rfl

/-- C8: an absent tag returns the all-default structure immediately, for
every catalogue. -/
theorem parse_tag_absent (packages : Catalogue) :
    parse_tag packages none = .ok ⟨none, none, none, false⟩ := rfl

/-- C9 counterexample: no catalogue and present tag make `parse_tag` fail
with `NoTagMatch` — the guard is unreachable, so in particular the tag
`garbage` does not produce it. -/
theorem noTagMatch_unreachable_cex :
    ¬ ∃ (packages : Catalogue) (t e : String),
      parse_tag packages (some t) = .error (.NoTagMatch e) := by
  rintro ⟨packages, t, e, h⟩
  have hfalse := parse_tag_not_noTagMatch packages t
  rw [h] at hfalse
  simp [isNoTagMatch] at hfalse

/-- C9 (amended): the `NoTagMatch` guard is defensive dead code — no
catalogue and present tag reach it — and the tag `garbage` with an empty
catalogue instead fails at the semantic-version parse. -/
theorem noTagMatch_dead_code :
    (∀ (packages : Catalogue) (t : String),
      isNoTagMatch (parse_tag packages (some t)) = false) ∧
    parse_tag [] (some "garbage") =
      .error (.TagVersionParse "garbage" "expected numeric component") :=
  ⟨parse_tag_not_noTagMatch, rfl⟩
